import Mathlib

/- Shallow embedding of the Voice-Agent repository's streaming core:
   the incremental text chunker (app/services/llm_service.py,
   LLMService.buffer_text_for_chunking), the audio validation and conversion
   utilities (app/services/audio_utils.py, AudioUtils), and the realtime
   relay and context cache (app/services/openai_realtime_service.py,
   OpenAIRealtimeService).  Python text strings are modelled as List Char and
   Python byte strings as List Nat whose elements are < 256. -/

namespace VoiceAgent

/-- Whitespace as recognised by Python's str.strip and str.split on
ASCII text: space, tab, newline, carriage return, vertical tab, form feed. -/
def isSpace (c : Char) : Bool :=
  c = ' ' || c = '\t' || c = '\n' || c = '\r' || c = '\x0b' || c = '\x0c'

/-- Python str.split() with no separator: the maximal runs of
non-whitespace characters, in order; empty runs never appear.  The
definition looks one character ahead so that it is structurally
recursive. -/
def words : List Char → List (List Char)
  | [] => []
  | [c] => if isSpace c then [] else [[c]]
  | c :: d :: cs =>
    if isSpace c then words (d :: cs)
    else if isSpace d then [c] :: words (d :: cs)
    else
      match words (d :: cs) with
      | w :: ws => (c :: w) :: ws
      | [] => [[c]]

/-- Python str.strip(): drop leading and trailing whitespace. -/
def trim (l : List Char) : List Char :=
  ((l.dropWhile isSpace).reverse.dropWhile isSpace).reverse

/-- Python " ".join(ws): interleave a single space between the parts. -/
def joinSpace : List (List Char) → List Char
  | [] => []
  | [w] => w
  | w :: ws => w ++ ' ' :: joinSpace ws

/-- Sentence-final punctuation recognised by the chunker. -/
def isPunct (c : Char) : Bool :=
  c = '.' || c = '!' || c = '?'

/-- The sentence-boundary test of buffer_text_for_chunking
(llm_service.py lines 350-351): buffer.endswith one of
".", "!", "?", ". ", "! ", "? ". -/
def endsWithPunct (l : List Char) : Bool :=
  match l.reverse with
  | [] => false
  | c :: rest =>
    if isPunct c then true
    else if c = ' ' then
      match rest with
      | d :: _ => isPunct d
      | [] => false
    else false

/-- One iteration of the async-for body of
LLMService.buffer_text_for_chunking (llm_service.py lines 342-367):
a None fragment is skipped; otherwise the fragment is appended to the
buffer and at most one chunk is emitted — on a sentence boundary once the
buffer has at least min_chunk_size characters, or, failing that, once the
buffer exceeds 100 characters (split before the last word when the buffer
holds more than one word).  Returns (emitted chunks, new buffer). -/
def chunkStep (minSize : Nat) (buffer : List Char) (piece : Option (List Char)) :
    List (List Char) × List Char :=
  match piece with
  | none => ([], buffer)
  | some p =>
    let b := buffer ++ p
    if minSize ≤ b.length && endsWithPunct b then
      ([trim b], [])
    else if 100 < b.length then
      let ws := words b
      if 1 < ws.length then ([trim (joinSpace ws.dropLast)], ws.getLastD [])
      else ([trim b], [])
    else ([], b)

/-- Folding chunkStep over a whole fragment stream from a given buffer:
returns all chunks emitted during the loop plus the final buffer. -/
def chunkRun (minSize : Nat) :
    List (Option (List Char)) → List Char → List (List Char) × List Char
  | [], buf => ([], buf)
  | p :: ps, buf =>
    let s := chunkStep minSize buf p
    let r := chunkRun minSize ps s.2
    (s.1 ++ r.1, r.2)

/-- The complete generator LLMService.buffer_text_for_chunking
(llm_service.py lines 329-371): run the loop from an empty buffer, then
flush the remaining buffer as a final chunk when it is non-blank. -/
def chunkAll (minSize : Nat) (pieces : List (Option (List Char))) :
    List (List Char) :=
  let r := chunkRun minSize pieces []
  r.1 ++ (if trim r.2 = [] then [] else [trim r.2])

/- Audio layer: app/services/audio_utils.py.  A Python bytes object is a
List Nat whose elements are < 256; this bound is carried as an explicit
well-formedness hypothesis where a claim needs it. -/

/-- Well-formed byte string: every element is an actual byte. -/
def BytesWF (data : List Nat) : Prop := ∀ b ∈ data, b < 256

instance : DecidablePred BytesWF := fun data =>
  List.decidableBAll (fun b => b < 256) data

/-- struct.unpack of one little-endian signed 16-bit integer from two
bytes (two's complement). -/
def int16OfBytes (lo hi : Nat) : Int :=
  let u := lo + 256 * hi
  if u < 32768 then (u : Int) else (u : Int) - 65536

/-- Decode a byte string into consecutive little-endian int16 samples;
a trailing odd byte is ignored (the callers never reach that case). -/
def pcmSamples : List Nat → List Int
  | lo :: hi :: rest => int16OfBytes lo hi :: pcmSamples rest
  | _ => []

/-- The range test applied to each unpacked sample in
AudioUtils.validate_pcm16_24khz (audio_utils.py lines 40-42). -/
def sampleOk (s : Int) : Bool :=
  decide (-32768 ≤ s) && decide (s ≤ 32767)

/-- AudioUtils.validate_pcm16_24khz (audio_utils.py lines 12-50): reject
odd length and length < 2, then unpack the first min(10, sample_count)
little-endian int16 samples (i.e. the first min(20, len) bytes) and check
each lies in the signed 16-bit range. -/
def validate_pcm16_24khz (data : List Nat) : Bool :=
  if data.length % 2 ≠ 0 then false
  else if data.length < 2 then false
  else (pcmSamples (data.take 20)).all sampleOk

/-- Truncation toward zero, as applied by numpy's astype(int16) to the
interpolated values (which are mathematically within int16 range here). -/
def truncQ (q : ℚ) : Int :=
  if 0 ≤ q then ⌊q⌋ else -(⌊-q⌋)

/-- np.interp at one query point x over sample points 0, 1, ..., n-1
with values `samples` (x is always within [0, n-1] at the call sites). -/
def interpAt (samples : List Int) (x : ℚ) : ℚ :=
  let n := samples.length
  let i := x.floor.toNat
  if i + 1 < n then
    (samples.getD i 0 : ℚ) +
      (x - (i : ℚ)) * ((samples.getD (i + 1) 0 : ℚ) - (samples.getD i 0 : ℚ))
  else (samples.getD (n - 1) 0 : ℚ)

/-- np.linspace(0, n-1, m): m evenly spaced points from 0 to n-1
inclusive; empty for m = 0 and [0] for m = 1.  Real arithmetic is
modelled exactly in ℚ rather than in float64. -/
def linspace01 (n m : Nat) : List ℚ :=
  if m ≤ 1 then (List.range m).map (fun _ => (0 : ℚ))
  else (List.range m).map (fun j => (j : ℚ) * ((n : ℚ) - 1) / ((m : ℚ) - 1))

/-- Re-encode one int16 sample as two little-endian bytes
(numpy tobytes on an int16 array). -/
def int16ToBytes (s : Int) : List Nat :=
  let u := (s % 65536).toNat
  [u % 256, u / 256]

/-- AudioUtils._resample_pcm16 (audio_utils.py lines 93-129): linear
interpolation resampling.  The three exception exits that the
try/except turns into None are modelled explicitly: np.frombuffer
raises on a byte length that is not a multiple of 2, np.interp raises
when the sample array is empty, and a zero source rate raises a
division error.  Float64 arithmetic is modelled exactly in ℚ and
int(n * ratio) as Nat division. -/
def resample_pcm16 (data : List Nat) (sourceRate targetRate : Nat) :
    Option (List Nat) :=
  if data.length % 2 ≠ 0 then none
  else if sourceRate = 0 then none
  else
    let samples := pcmSamples data
    let n := samples.length
    if n = 0 then none
    else
      let m := n * targetRate / sourceRate
      let resampled := (linspace01 n m).map (fun x => truncQ (interpAt samples x))
      some ((resampled.map int16ToBytes).flatten)

/-- AudioUtils.convert_to_pcm16_24khz (audio_utils.py lines 52-91): a
buffer passing validation is returned as-is; otherwise, when the source
rate differs from 24000, linear resampling is attempted and its result
returned when truthy (non-None and non-empty); in every remaining case
the original data is returned unchanged ("hope for the best").  The
None exit of the Python function is its catch-all exception handler,
which no modelled path reaches. -/
def convert_to_pcm16_24khz (data : List Nat) (sourceRate : Nat) :
    Option (List Nat) :=
  if validate_pcm16_24khz data then some data
  else if sourceRate ≠ 24000 then
    match resample_pcm16 data sourceRate 24000 with
    | some r => if r = [] then some data else some r
    | none => some data
  else some data

/- Transport encoding: base64.b64encode / b64decode as used by
OpenAIRealtimeService.send_audio_chunk. -/

/-- The standard base64 alphabet. -/
def b64Alphabet : List Char :=
  "ABCDEFGHIJKLMNOPQRSTUVWXYZabcdefghijklmnopqrstuvwxyz0123456789+/".data

/-- Character for a 6-bit value. -/
def b64CharOf (v : Nat) : Char := b64Alphabet.getD v '='

/-- Index of a character in the base64 alphabet. -/
def b64ValAux (c : Char) : List Char → Nat → Option Nat
  | [], _ => none
  | d :: ds, i => if c = d then some i else b64ValAux c ds (i + 1)

/-- Six-bit value of a base64 character. -/
def b64Val (c : Char) : Option Nat := b64ValAux c b64Alphabet 0

/-- base64.b64encode over byte triples, with '=' padding. -/
def b64Encode : List Nat → List Char
  | b1 :: b2 :: b3 :: rest =>
    [b64CharOf (b1 / 4), b64CharOf (b1 % 4 * 16 + b2 / 16),
     b64CharOf (b2 % 16 * 4 + b3 / 64), b64CharOf (b3 % 64)] ++ b64Encode rest
  | [b1, b2] =>
    [b64CharOf (b1 / 4), b64CharOf (b1 % 4 * 16 + b2 / 16),
     b64CharOf (b2 % 16 * 4), '=']
  | [b1] =>
    [b64CharOf (b1 / 4), b64CharOf (b1 % 4 * 16), '=', '=']
  | [] => []

/-- base64.b64decode over quadruples of characters. -/
def b64Decode : List Char → Option (List Nat)
  | [] => some []
  | c1 :: c2 :: c3 :: c4 :: rest =>
    match b64Val c1, b64Val c2 with
    | some v1, some v2 =>
      if c3 = '=' then
        if c4 = '=' ∧ rest = [] then some [v1 * 4 + v2 / 16] else none
      else
        match b64Val c3 with
        | some v3 =>
          if c4 = '=' then
            if rest = [] then some [v1 * 4 + v2 / 16, v2 % 16 * 16 + v3 / 4]
            else none
          else
            match b64Val c4 with
            | some v4 =>
              (b64Decode rest).map
                (fun t => (v1 * 4 + v2 / 16) :: (v2 % 16 * 16 + v3 / 4) ::
                  (v3 % 4 * 64 + v4) :: t)
            | none => none
        | none => none
    | _, _ => none
  | _ => none

/- Relay layer: app/services/openai_realtime_service.py. -/

/-- Global audio counters of OpenAIRealtimeService.audio_stats. -/
structure GlobalStats where
  total_chunks_processed : Nat
  valid_chunks : Nat
  converted_chunks : Nat
  rejected_chunks : Nat
deriving DecidableEq

/-- Per-session audio counters (sessions[id]['audio_stats']). -/
structure SessionStats where
  chunks_sent : Nat
  chunks_converted : Nat
  total_audio_bytes : Nat
deriving DecidableEq

/-- The parts of a session entry that send_audio_chunk touches: whether a
provider websocket handle is attached, the last-activity timestamp, and
the per-session counters. -/
structure Session where
  hasWebsocket : Bool
  lastActivity : Nat
  stats : SessionStats
deriving DecidableEq

/-- The service state seen by send_audio_chunk for one session id:
the session entry (if any) plus the global counters. -/
structure RelayState where
  session : Option Session
  stats : GlobalStats
deriving DecidableEq

/-- An event sent to the provider websocket. -/
inductive ProviderEvent where
  | appendAudio (payload : List Char)
deriving DecidableEq

/-- OpenAIRealtimeService.send_audio_chunk (openai_realtime_service.py
lines 178-230) for one session at time `now`: missing session or missing
websocket returns False untouched; otherwise per-session counters and the
processed-chunk counter are bumped, the buffer is validated (and, failing
that, converted — the Python call passes the detected format and leaves
source_sample_rate at its default 48000), a falsy conversion result
increments the rejected counter and returns False, and otherwise exactly
one input_audio_buffer.append event carrying the base64 payload is sent.
Returns (new state, events sent to the provider, return value). -/
def send_audio_chunk (st : RelayState) (now : Nat) (audio : List Nat) :
    RelayState × List ProviderEvent × Bool :=
  match st.session with
  | none => (st, [], false)
  | some s =>
    if ¬ s.hasWebsocket then (st, [], false)
    else
      let s1 : Session :=
        { s with
          lastActivity := now
          stats :=
            { s.stats with
              chunks_sent := s.stats.chunks_sent + 1
              total_audio_bytes := s.stats.total_audio_bytes + audio.length } }
      let g1 : GlobalStats :=
        { st.stats with
          total_chunks_processed := st.stats.total_chunks_processed + 1 }
      if validate_pcm16_24khz audio then
        ({ session := some s1, stats := { g1 with valid_chunks := g1.valid_chunks + 1 } },
         [ProviderEvent.appendAudio (b64Encode audio)], true)
      else
        match convert_to_pcm16_24khz audio 48000 with
        | some processed =>
          if processed = [] then
            ({ session := some s1,
               stats := { g1 with rejected_chunks := g1.rejected_chunks + 1 } },
             [], false)
          else
            ({ session := some
                 { s1 with stats :=
                    { s1.stats with chunks_converted := s1.stats.chunks_converted + 1 } },
               stats := { g1 with converted_chunks := g1.converted_chunks + 1 } },
             [ProviderEvent.appendAudio (b64Encode processed)], true)
        | none =>
          ({ session := some s1,
             stats := { g1 with rejected_chunks := g1.rejected_chunks + 1 } },
           [], false)

/- Context cache layer: OpenAIRealtimeService._build_cached_system_context
(openai_realtime_service.py lines 41-83) over a TTLCache(maxsize=100,
ttl=3600). -/

/-- Python str.strip() on a String value. -/
def trimS (s : String) : String := ⟨trim s.data⟩

/-- Python len(s.split()): number of whitespace-separated words. -/
def wordCountS (s : String) : Nat := (words s.data).length

/-- The fixed prelude of the system context (the base_instructions
literal). -/
def baseInstructions : String :=
  "You are a helpful voice assistant powered by OpenAI's GPT-4o-mini. You provide accurate, helpful responses based on the knowledge base provided below.\n\nKey guidelines:\n- Provide clear, conversational responses\n- Be concise but informative  \n- Use the knowledge base to answer questions accurately\n- If information isn't in the knowledge base, say so clearly\n- Maintain a helpful and professional tone\n- Focus on being useful and accurate\n\nKNOWLEDGE BASE:\n"

/-- The for-loop over knowledge_chunks[:50]: append a numbered document
section for every chunk whose stripped content is non-empty.  A knowledge
chunk is modelled by its content string. -/
def docSection : Nat → List String → String
  | _, [] => ""
  | i, c :: cs =>
    (if trimS c ≠ "" then "\n\nDocument " ++ toString (i + 1) ++ ":\n" ++ trimS c
     else "") ++ docSection (i + 1) cs

/-- The padding sentence appended by the while loop. -/
def padSentence : String :=
  "\n\nAdditional context: Provide comprehensive and helpful responses based on the available knowledge base content."

/-- The while loop `while len(base_instructions.split()) < 300: append
padSentence`, with fuel 300: each pass appends a sentence holding 14
words, so 300 iterations always suffice to leave the loop condition
false and the fuel variant computes exactly what the loop computes. -/
def padLoop : Nat → String → String
  | 0, s => s
  | fuel + 1, s =>
    if wordCountS s < 300 then padLoop fuel (s ++ padSentence) else s

/-- The builder part of _build_cached_system_context: the instruction
document assembled from the knowledge chunk contents. -/
def buildInstructions (chunks : List String) : String :=
  padLoop 300 (baseInstructions ++ docSection 0 (chunks.take 50))

/-- knowledge_text = " ".join(chunk.content for chunk in chunks). -/
def knowledgeText : List String → String
  | [] => ""
  | [c] => c
  | c :: cs => c ++ " " ++ knowledgeText cs

/-- The cache key f"system_context_{hash(knowledge_text)}".  CPython's
per-process deterministic string hash is modelled by the identity
fingerprint: equal knowledge text gives equal key, which is the property
the cache relies on. -/
def cacheKey (chunks : List String) : String :=
  "system_context_" ++ knowledgeText chunks

/-- One entry of the TTLCache: key, cached instructions and absolute
expiry time (insertion time + 3600). -/
structure CacheEntry where
  key : String
  value : String
  expires : Nat
deriving DecidableEq

/-- The TTLCache content, oldest entry first. -/
abbrev ContextCache : Type := List CacheEntry

/-- Membership/read of the TTLCache at time `now`: an entry is visible
only while now < expires (lazy expiry). -/
def cacheLookup (c : ContextCache) (now : Nat) (k : String) : Option String :=
  ((c : List CacheEntry).find? fun e =>
    decide (k = e.key) && decide (now < e.expires)).map (·.value)

/-- Write to the TTLCache at time `now`: replace any entry with the same
key, set expiry now + 3600, and evict oldest entries beyond the maximum
size of 100. -/
def cacheInsert (c : ContextCache) (now : Nat) (k v : String) : ContextCache :=
  let kept := (c : List CacheEntry).filter fun e => !(decide (k = e.key))
  let c' := kept ++ [⟨k, v, now + 3600⟩]
  if 100 < c'.length then c'.drop (c'.length - 100) else c'

/-- Result of one _build_cached_system_context call: the returned
instructions, the cache afterwards, and whether the builder ran (i.e.
the cache missed). -/
structure BuildResult where
  value : String
  cache : ContextCache
  invokedBuilder : Bool

/-- OpenAIRealtimeService._build_cached_system_context
(openai_realtime_service.py lines 41-83): compute the fingerprint key
from the joined knowledge content; on a live cache hit return the cached
instructions without building; otherwise build the instruction document,
store it and return it. -/
def build_cached_system_context (cache : ContextCache) (now : Nat)
    (chunks : List String) : BuildResult :=
  match cacheLookup cache now (cacheKey chunks) with
  | some v => ⟨v, cache, false⟩
  | none =>
    let instructions := buildInstructions chunks
    ⟨instructions, cacheInsert cache now (cacheKey chunks) instructions, true⟩

/-- Concatenation of the text fragments of a stream, None fragments
contributing nothing. -/
def fragsConcat : List (Option (List Char)) → List Char
  | [] => []
  | none :: ps => fragsConcat ps
  | some p :: ps => p ++ fragsConcat ps

/-- The non-whitespace characters of a string, in order. -/
def nonSpace (c : Char) : Bool := !isSpace c

theorem words_sp_cons {c : Char} (h : isSpace c = true) (cs : List Char) :
    words (c :: cs) = words cs := by
  cases cs with
  | nil => simp [words, h]
  | cons d cs' => simp [words, h]

theorem words_all_sp : ∀ {s : List Char}, (∀ c ∈ s, isSpace c = true) →
    words s = []
  | [], _ => rfl
  | c :: cs, h => by
    rw [words_sp_cons (h c (List.mem_cons_self c cs))]
    exact words_all_sp fun x hx => h x (List.mem_cons_of_mem c hx)

theorem words_cons_ne_nil {c : Char} (h : isSpace c = false) (cs : List Char) :
    words (c :: cs) ≠ [] := by
  cases cs with
  | nil => simp [words, h]
  | cons d cs' =>
    simp only [words, h, Bool.false_eq_true, if_false]
    by_cases hd : isSpace d = true
    · simp [hd]
    · rw [Bool.not_eq_true] at hd
      simp only [hd, Bool.false_eq_true, if_false]
      cases hW : words (d :: cs') with
      | nil => simp
      | cons w ws => simp

theorem words_ne_nil : ∀ (l : List Char), ∀ w ∈ words l, w ≠ [] := by
  intro l
  induction l with
  | nil => simp [words]
  | cons c t ih =>
    cases t with
    | nil =>
      intro w hw
      by_cases h : isSpace c = true
      · simp [words, h] at hw
      · simp [words, Bool.not_eq_true _ ▸ h] at hw
        simp [hw]
    | cons d cs =>
      intro w hw
      by_cases hc : isSpace c = true
      · rw [words_sp_cons hc] at hw
        exact ih w hw
      · rw [Bool.not_eq_true] at hc
        by_cases hd : isSpace d = true
        · simp only [words, hc, Bool.false_eq_true, if_false, hd, if_true] at hw
          rcases List.mem_cons.mp hw with h1 | h1
          · simp [h1]
          · exact ih w h1
        · rw [Bool.not_eq_true] at hd
          simp only [words, hc, Bool.false_eq_true, if_false, hd] at hw
          rcases hW : words (d :: cs) with _ | ⟨w0, ws⟩
          · rw [hW] at hw
            simp at hw
            simp [hw]
          · rw [hW] at hw
            rcases List.mem_cons.mp hw with h1 | h1
            · simp [h1]
            · exact ih w (hW ▸ List.mem_cons_of_mem w0 h1)

theorem words_nonspace : ∀ (l : List Char), ∀ w ∈ words l, ∀ c ∈ w,
    isSpace c = false := by
  intro l
  induction l with
  | nil => simp [words]
  | cons c t ih =>
    cases t with
    | nil =>
      intro w hw ch hch
      by_cases h : isSpace c = true
      · simp [words, h] at hw
      · rw [Bool.not_eq_true] at h
        simp [words, h] at hw
        subst hw
        simp at hch
        subst hch
        exact h
    | cons d cs =>
      intro w hw ch hch
      by_cases hc : isSpace c = true
      · rw [words_sp_cons hc] at hw
        exact ih w hw ch hch
      · rw [Bool.not_eq_true] at hc
        by_cases hd : isSpace d = true
        · simp only [words, hc, Bool.false_eq_true, if_false, hd, if_true] at hw
          rcases List.mem_cons.mp hw with h1 | h1
          · subst h1
            simp at hch
            subst hch
            exact hc
          · exact ih w h1 ch hch
        · rw [Bool.not_eq_true] at hd
          simp only [words, hc, Bool.false_eq_true, if_false, hd] at hw
          rcases hW : words (d :: cs) with _ | ⟨w0, ws⟩
          · rw [hW] at hw
            simp at hw
            subst hw
            simp at hch
            subst hch
            exact hc
          · rw [hW] at hw
            rcases List.mem_cons.mp hw with h1 | h1
            · subst h1
              rcases List.mem_cons.mp hch with h2 | h2
              · subst h2; exact hc
              · exact ih w0 (hW ▸ List.mem_cons_self w0 ws) ch h2
            · exact ih w (hW ▸ List.mem_cons_of_mem w0 h1) ch hch

theorem flatten_words : ∀ (l : List Char),
    (words l).flatten = l.filter nonSpace := by
  intro l
  induction l with
  | nil => simp [words]
  | cons c t ih =>
    cases t with
    | nil =>
      by_cases h : isSpace c = true
      · simp [words, h, nonSpace]
      · rw [Bool.not_eq_true] at h
        simp [words, h, nonSpace]
    | cons d cs =>
      by_cases hc : isSpace c = true
      · rw [words_sp_cons hc, ih]
        simp [nonSpace, hc]
      · rw [Bool.not_eq_true] at hc
        by_cases hd : isSpace d = true
        · simp only [words, hc, Bool.false_eq_true, if_false, hd, if_true]
          simp only [List.flatten_cons, ih]
          simp [nonSpace, hc]
        · rw [Bool.not_eq_true] at hd
          simp only [words, hc, Bool.false_eq_true, if_false, hd]
          rcases hW : words (d :: cs) with _ | ⟨w0, ws⟩
          · exact absurd hW (words_cons_ne_nil hd cs)
          · rw [hW] at ih
            simp only [List.flatten_cons] at ih ⊢
            simp only [List.filter_cons, nonSpace, hc, hd] at ih ⊢
            simp only [Bool.not_false, if_true] at ih ⊢
            rw [List.cons_append, ih]

theorem filter_dropWhile_sp : ∀ l : List Char,
    (l.dropWhile isSpace).filter nonSpace = l.filter nonSpace
  | [] => rfl
  | c :: cs => by
    by_cases h : isSpace c = true
    · rw [List.dropWhile_cons_of_pos h, filter_dropWhile_sp cs]
      simp [List.filter_cons, nonSpace, h]
    · rw [Bool.not_eq_true] at h
      rw [List.dropWhile_cons_of_neg (by simp [h])]

theorem filter_trim (l : List Char) :
    (trim l).filter nonSpace = l.filter nonSpace := by
  unfold trim
  rw [List.filter_reverse, filter_dropWhile_sp, List.filter_reverse,
    List.reverse_reverse, filter_dropWhile_sp]

theorem trim_eq_nil_filter {l : List Char} (h : trim l = []) :
    l.filter nonSpace = [] := by
  rw [← filter_trim, h]
  rfl

theorem trim_ne_nil {l : List Char} {c : Char} (hc : c ∈ l)
    (hns : isSpace c = false) : trim l ≠ [] := by
  intro h
  have := trim_eq_nil_filter h
  have hmem : c ∈ l.filter nonSpace :=
    List.mem_filter.mpr ⟨hc, by simp [nonSpace, hns]⟩
  rw [this] at hmem
  exact List.not_mem_nil c hmem

theorem dropWhile_sp_idem : ∀ l : List Char,
    (l.dropWhile isSpace).dropWhile isSpace = l.dropWhile isSpace
  | [] => rfl
  | c :: cs => by
    by_cases h : isSpace c = true
    · rw [List.dropWhile_cons_of_pos h, dropWhile_sp_idem cs]
    · rw [List.dropWhile_cons_of_neg (by simpa using h),
        List.dropWhile_cons_of_neg (by simpa using h)]

/-- Removal of trailing whitespace alone. -/
def rstrip (l : List Char) : List Char :=
  (l.reverse.dropWhile isSpace).reverse

theorem trim_eq_rstrip_lstrip (l : List Char) :
    trim l = rstrip (l.dropWhile isSpace) := rfl

theorem rstrip_idem (l : List Char) : rstrip (rstrip l) = rstrip l := by
  unfold rstrip
  rw [List.reverse_reverse, dropWhile_sp_idem]

theorem rstrip_cons_of_nonspace {c : Char} (h : isSpace c = false)
    (l : List Char) : rstrip (c :: l) = c :: rstrip l := by
  unfold rstrip
  rw [List.reverse_cons, List.dropWhile_append]
  by_cases he : (l.reverse.dropWhile isSpace).isEmpty = true
  · rw [if_pos he]
    rw [List.isEmpty_iff] at he
    rw [he]
    simp [List.dropWhile, h]
  · rw [if_neg (by simpa using he)]
    simp

theorem rstrip_cons_of_space {c : Char} (h : isSpace c = true) (l : List Char) :
    rstrip (c :: l) = if rstrip l = [] then [] else c :: rstrip l := by
  unfold rstrip
  rw [List.reverse_cons, List.dropWhile_append]
  by_cases he : (l.reverse.dropWhile isSpace).isEmpty = true
  · rw [if_pos he]
    rw [List.isEmpty_iff] at he
    rw [he]
    simp [List.dropWhile, h]
  · rw [if_neg (by simpa using he)]
    rw [List.isEmpty_iff] at he
    rw [if_neg (by simpa using he)]
    simp

theorem rstrip_all_sp {l : List Char} (h : ∀ c ∈ l, isSpace c = true) :
    rstrip l = [] := by
  unfold rstrip
  have : l.reverse.dropWhile isSpace = [] :=
    List.dropWhile_eq_nil_iff.mpr (by simpa using fun c hc => h c hc)
  rw [this, List.reverse_nil]

theorem lstrip_rstrip_comm : ∀ l : List Char,
    (rstrip l).dropWhile isSpace = rstrip (l.dropWhile isSpace)
  | [] => rfl
  | c :: cs => by
    by_cases h : isSpace c = true
    · rw [rstrip_cons_of_space h, List.dropWhile_cons_of_pos h]
      by_cases hr : rstrip cs = []
      · rw [if_pos hr, ← lstrip_rstrip_comm cs, hr]
      · rw [if_neg hr, List.dropWhile_cons_of_pos h, lstrip_rstrip_comm cs]
    · rw [Bool.not_eq_true] at h
      rw [rstrip_cons_of_nonspace h, List.dropWhile_cons_of_neg (by simp [h]),
        List.dropWhile_cons_of_neg (by simp [h]), rstrip_cons_of_nonspace h]

theorem trim_idem (l : List Char) : trim (trim l) = trim l := by
  rw [trim_eq_rstrip_lstrip, trim_eq_rstrip_lstrip, lstrip_rstrip_comm,
    dropWhile_sp_idem, rstrip_idem]

theorem words_append_sp {s : List Char} (hs : ∀ c ∈ s, isSpace c = true) :
    ∀ x : List Char, words (x ++ s) = words x := by
  intro x
  induction x with
  | nil => simpa using words_all_sp hs
  | cons c t ih =>
    cases t with
    | nil =>
      by_cases hc : isSpace c = true
      · rw [List.singleton_append, words_sp_cons hc, words_all_sp hs]
        simp [words, hc]
      · rw [Bool.not_eq_true] at hc
        rw [List.singleton_append]
        cases s with
        | nil => simp
        | cons e s' =>
          have he : isSpace e = true := hs e (List.mem_cons_self e s')
          simp only [words, hc, Bool.false_eq_true, if_false, he, if_true]
          rw [words_sp_cons he, words_all_sp
            (fun x hx => hs x (List.mem_cons_of_mem e hx))]
    | cons d t' =>
      by_cases hc : isSpace c = true
      · rw [List.cons_append, words_sp_cons hc, words_sp_cons hc]
        exact ih
      · rw [Bool.not_eq_true] at hc
        rw [List.cons_append] at ih
        by_cases hd : isSpace d = true
        · simp only [List.cons_append, List.append_eq, words, hc,
            Bool.false_eq_true, if_false, hd, if_true]
          rw [ih]
        · rw [Bool.not_eq_true] at hd
          simp only [List.cons_append, List.append_eq, words, hc,
            Bool.false_eq_true, if_false, hd]
          rw [ih]

theorem words_dropWhile_sp : ∀ l : List Char,
    words (l.dropWhile isSpace) = words l
  | [] => rfl
  | c :: cs => by
    by_cases h : isSpace c = true
    · rw [List.dropWhile_cons_of_pos h, words_dropWhile_sp cs, words_sp_cons h]
    · rw [List.dropWhile_cons_of_neg (by simpa using h)]

theorem words_rstrip (l : List Char) : words (rstrip l) = words l := by
  have hdecomp : l = rstrip l ++ (l.reverse.takeWhile isSpace).reverse := by
    unfold rstrip
    calc l = l.reverse.reverse := (List.reverse_reverse l).symm
    _ = (l.reverse.takeWhile isSpace ++ l.reverse.dropWhile isSpace).reverse := by
        rw [List.takeWhile_append_dropWhile]
    _ = (l.reverse.dropWhile isSpace).reverse ++
          (l.reverse.takeWhile isSpace).reverse := by
        rw [List.reverse_append]
  conv_rhs => rw [hdecomp]
  rw [words_append_sp]
  intro c hc
  rw [List.mem_reverse] at hc
  exact List.mem_takeWhile_imp hc

theorem words_trim (l : List Char) : words (trim l) = words l := by
  rw [trim_eq_rstrip_lstrip, words_rstrip, words_dropWhile_sp]

theorem words_single : ∀ (w : List Char), w ≠ [] →
    (∀ c ∈ w, isSpace c = false) → words w = [w]
  | [], h, _ => absurd rfl h
  | [c], _, hns => by simp [words, hns c (by simp)]
  | c :: d :: t, _, hns => by
    have hc := hns c (by simp)
    have hd := hns d (by simp)
    simp only [words, hc, Bool.false_eq_true, if_false, hd]
    rw [words_single (d :: t) (by simp)
      (fun x hx => hns x (List.mem_cons_of_mem c hx))]

theorem words_word_append : ∀ (w t : List Char), w ≠ [] →
    (∀ c ∈ w, isSpace c = false) → words (w ++ ' ' :: t) = w :: words t
  | [], _, h, _ => absurd rfl h
  | [c], t, _, hns => by
    have hc := hns c (by simp)
    have hsp : isSpace ' ' = true := by decide
    rw [List.singleton_append]
    simp only [words, hc, Bool.false_eq_true, if_false, hsp, if_true]
    rw [words_sp_cons hsp]
  | c :: d :: u, t, _, hns => by
    have hc := hns c (by simp)
    have hd := hns d (by simp)
    have := words_word_append (d :: u) t (by simp)
      (fun x hx => hns x (List.mem_cons_of_mem c hx))
    simp only [List.cons_append] at this ⊢
    simp only [words, hc, Bool.false_eq_true, if_false, hd, this]

theorem words_joinSpace : ∀ (ws : List (List Char)),
    (∀ w ∈ ws, w ≠ [] ∧ ∀ c ∈ w, isSpace c = false) →
    words (joinSpace ws) = ws
  | [], _ => rfl
  | [w], h => by
    have hw := h w (by simp)
    simp only [joinSpace]
    exact words_single w hw.1 hw.2
  | w :: w2 :: rest, h => by
    have hw := h w (by simp)
    simp only [joinSpace]
    rw [words_word_append w _ hw.1 hw.2,
      words_joinSpace (w2 :: rest) (fun x hx => h x (List.mem_cons_of_mem w hx))]

theorem filter_joinSpace : ∀ (ws : List (List Char)),
    (∀ w ∈ ws, ∀ c ∈ w, isSpace c = false) →
    (joinSpace ws).filter nonSpace = ws.flatten
  | [], _ => rfl
  | [w], h => by
    simp only [joinSpace, List.flatten_cons, List.flatten_nil, List.append_nil]
    exact List.filter_eq_self.mpr (fun c hc => by simp [nonSpace, h w (by simp) c hc])
  | w :: w2 :: rest, h => by
    simp only [joinSpace, List.flatten_cons]
    rw [List.filter_append, List.filter_cons]
    have hsp : nonSpace ' ' = false := by decide
    rw [hsp]
    simp only [Bool.false_eq_true, if_false]
    rw [List.filter_eq_self.mpr (fun c hc => by simp [nonSpace, h w (by simp) c hc]),
      filter_joinSpace (w2 :: rest) (fun x hx => h x (List.mem_cons_of_mem w hx))]
    simp

theorem joinSpace_has_nonspace : ∀ (ws : List (List Char)), ws ≠ [] →
    (∀ w ∈ ws, w ≠ [] ∧ ∀ c ∈ w, isSpace c = false) →
    ∃ c ∈ joinSpace ws, isSpace c = false := by
  intro ws hne h
  cases ws with
  | nil => exact absurd rfl hne
  | cons w rest =>
    have hw := h w (by simp)
    cases hwc : w with
    | nil => exact absurd hwc hw.1
    | cons c0 w' =>
      refine ⟨c0, ?_, hw.2 c0 (by simp [hwc])⟩
      cases rest with
      | nil => simp [joinSpace, hwc]
      | cons w2 rest' =>
        simp only [joinSpace]
        exact List.mem_append_left _ (by simp [hwc])

theorem getLastD_append_singleton {α : Type} :
    ∀ (l : List α) (a d : α), (l ++ [a]).getLastD d = a
  | [], _, _ => rfl
  | _ :: t, a, d => by
    rw [List.cons_append, List.getLastD_cons]
    exact getLastD_append_singleton t a _

theorem fragsConcat_cons (p : Option (List Char)) (ps : List (Option (List Char))) :
    fragsConcat (p :: ps) = p.getD [] ++ fragsConcat ps := by
  cases p <;> rfl

theorem chunkStep_filter (m : Nat) (buf : List Char) (p : Option (List Char)) :
    ((chunkStep m buf p).1.flatten ++ (chunkStep m buf p).2).filter nonSpace
      = (buf ++ p.getD []).filter nonSpace := by
  cases p with
  | none => simp [chunkStep]
  | some q =>
    show ((chunkStep m buf (some q)).1.flatten ++
      (chunkStep m buf (some q)).2).filter nonSpace = (buf ++ q).filter nonSpace
    by_cases h1 : (m ≤ (buf ++ q).length && endsWithPunct (buf ++ q)) = true
    · simp only [chunkStep, h1, if_true]
      simp only [List.flatten_cons, List.flatten_nil, List.append_nil]
      exact filter_trim (buf ++ q)
    · by_cases h2 : 100 < (buf ++ q).length
      · by_cases h3 : 1 < (words (buf ++ q)).length
        · simp only [chunkStep, h1, Bool.false_eq_true, if_false, h2, if_true,
            h3, List.flatten_cons, List.flatten_nil, List.append_nil]
          have hne : words (buf ++ q) ≠ [] := by
            intro h
            rw [h] at h3
            simp at h3
          have hdecomp : words (buf ++ q) =
              (words (buf ++ q)).dropLast ++ [(words (buf ++ q)).getLast hne] :=
            (List.dropLast_append_getLast hne).symm
          have hlastD : (words (buf ++ q)).getLastD [] =
              (words (buf ++ q)).getLast hne := by
            conv_lhs => rw [hdecomp]
            exact getLastD_append_singleton _ _ _
          rw [hlastD, List.filter_append, filter_trim,
            filter_joinSpace _ (fun w hw c hc => words_nonspace (buf ++ q) w
              (List.dropLast_subset _ hw) c hc),
            List.filter_eq_self.mpr (fun c hc => by
              simp [nonSpace, words_nonspace (buf ++ q) _
                (List.getLast_mem hne) c hc]),
            ← flatten_words (buf ++ q)]
          conv_rhs => rw [hdecomp]
          simp
        · simp only [chunkStep, h1, Bool.false_eq_true, if_false, h2, if_true,
            h3, List.flatten_cons, List.flatten_nil, List.append_nil]
          exact filter_trim (buf ++ q)
      · simp only [chunkStep, h1, Bool.false_eq_true, if_false, h2, if_false]
        simp

theorem chunkRun_filter (m : Nat) :
    ∀ (ps : List (Option (List Char))) (buf : List Char),
    ((chunkRun m ps buf).1.flatten ++ (chunkRun m ps buf).2).filter nonSpace
      = (buf ++ fragsConcat ps).filter nonSpace
  | [], buf => by simp [chunkRun, fragsConcat]
  | p :: ps, buf => by
    have hstep := chunkStep_filter m buf p
    have hrest := chunkRun_filter m ps (chunkStep m buf p).2
    simp only [chunkRun, List.flatten_append, List.append_assoc,
      List.filter_append] at hstep hrest ⊢
    rw [fragsConcat_cons, List.filter_append, hrest, ← List.append_assoc,
      hstep, List.append_assoc]

/-- Auxiliary for C9: every chunk emitted by one step on a fragment
containing a non-whitespace character is non-blank and trim-stable. -/
theorem chunkStep_chunks (m : Nat) (buf q : List Char)
    (hq : ∃ c ∈ q, isSpace c = false) :
    ∀ ch ∈ (chunkStep m buf (some q)).1, ch ≠ [] ∧ trim ch = ch := by
  obtain ⟨c0, hc0, hns0⟩ := hq
  intro ch hch
  by_cases h1 : (m ≤ (buf ++ q).length && endsWithPunct (buf ++ q)) = true
  · simp only [chunkStep, h1, if_true, List.mem_singleton] at hch
    subst hch
    exact ⟨trim_ne_nil (List.mem_append_right buf hc0) hns0, trim_idem _⟩
  · by_cases h2 : 100 < (buf ++ q).length
    · by_cases h3 : 1 < (words (buf ++ q)).length
      · simp only [chunkStep, h1, Bool.false_eq_true, if_false, h2, if_true,
          h3, List.mem_singleton] at hch
        subst hch
        have hcs : (words (buf ++ q)).dropLast ≠ [] := by
          have := List.length_dropLast (words (buf ++ q))
          intro h
          rw [h] at this
          simp at this
          omega
        obtain ⟨c1, hc1, hns1⟩ := joinSpace_has_nonspace _ hcs
          (fun w hw => ⟨words_ne_nil _ w (List.dropLast_subset _ hw),
            fun c hc => words_nonspace _ w (List.dropLast_subset _ hw) c hc⟩)
        exact ⟨trim_ne_nil hc1 hns1, trim_idem _⟩
      · simp only [chunkStep, h1, Bool.false_eq_true, if_false, h2, if_true,
          h3, List.mem_singleton] at hch
        subst hch
        exact ⟨trim_ne_nil (List.mem_append_right buf hc0) hns0, trim_idem _⟩
    · simp only [chunkStep, h1, Bool.false_eq_true, if_false, h2, if_false] at hch
      simp at hch

/-- Whether a fragment is None (skipped) or contains a non-whitespace
character. -/
def fragHasNonSpace : Option (List Char) → Bool
  | none => true
  | some q => q.any nonSpace

/-- Auxiliary for C9: chunkRun only emits non-blank, trim-stable chunks
when every delivered fragment has a non-whitespace character. -/
theorem chunkRun_chunks (m : Nat) :
    ∀ (ps : List (Option (List Char))) (buf : List Char),
    (∀ p ∈ ps, fragHasNonSpace p = true) →
    ∀ ch ∈ (chunkRun m ps buf).1, ch ≠ [] ∧ trim ch = ch
  | [], _, _ => by simp [chunkRun]
  | p :: ps, buf, h => by
    intro ch hch
    simp only [chunkRun, List.mem_append] at hch
    rcases hch with hch | hch
    · cases p with
      | none => simp [chunkStep] at hch
      | some q =>
        have hne : ∃ c ∈ q, isSpace c = false := by
          have := h (some q) (List.mem_cons_self _ _)
          simp only [fragHasNonSpace, List.any_eq_true] at this
          obtain ⟨c, hc, hcn⟩ := this
          exact ⟨c, hc, by simpa [nonSpace] using hcn⟩
        exact chunkStep_chunks m buf q hne ch hch
    · exact chunkRun_chunks m ps _ (fun x hx => h x (List.mem_cons_of_mem p hx))
        ch hch

/-- Claim C9, counterexample: feeding a single fragment of 101 spaces
makes the hard ceiling fire on a whitespace-only single-word buffer, and
buffer_text_for_chunking yields the empty chunk — contradicting the claim
that no empty or whitespace-only chunk is ever emitted. -/
theorem chunker_empty_chunk_cex :
    chunkAll 5 [some (List.replicate 101 ' ')] = [[]] := by decide

/-- Claim C9 (amended): a None fragment is skipped (the step leaves the
state unchanged and emits nothing) and, provided every delivered fragment
contains at least one non-whitespace character, every chunk emitted by
buffer_text_for_chunking is non-empty and carries no surrounding
whitespace; a whitespace-only fragment stream can instead produce one
empty chunk when the 100-character ceiling fires on a whitespace-only
buffer. -/
theorem chunker_no_blank_chunks (m : Nat) (ps : List (Option (List Char)))
    (hfrag : ∀ p ∈ ps, fragHasNonSpace p = true) :
    (∀ buf, chunkStep m buf none = ([], buf)) ∧
    ∀ ch ∈ chunkAll m ps, ch ≠ [] ∧ trim ch = ch := by
  refine ⟨fun _ => rfl, ?_⟩
  intro ch hch
  unfold chunkAll at hch
  rw [List.mem_append] at hch
  rcases hch with hch | hch
  · exact chunkRun_chunks m ps [] hfrag ch hch
  · by_cases hg : trim (chunkRun m ps []).2 = []
    · rw [if_pos hg] at hch
      simp at hch
    · rw [if_neg hg] at hch
      rw [List.mem_singleton] at hch
      subst hch
      exact ⟨hg, trim_idem _⟩

/-- Claim C9, witness: a concrete stream with a None fragment and two
text fragments, on which the amended statement is instantiated. -/
theorem chunker_no_blank_chunks_witness :
    (∀ p ∈ [some "Hello world.".data, none, some "Bye.".data],
      fragHasNonSpace p = true) ∧
    ((∀ buf, chunkStep 5 buf none = ([], buf)) ∧
      ∀ ch ∈ chunkAll 5 [some "Hello world.".data, none, some "Bye.".data],
        ch ≠ [] ∧ trim ch = ch) :=
  ⟨by decide, chunker_no_blank_chunks 5 _ (by decide)⟩

/-- Claim C1, counterexample: with fragments "a a ... a " (51 repetitions
of "a ") followed by "b" and minimum size 5, the hard ceiling fires on a
buffer with a trailing space; the unconsumed remainder "a" is rebuffered
without its following space and is then glued to the next fragment "b",
so the chunks reconstruct "... a ab" while the input normalises to
"... a a b" — characters survive but one word boundary is lost. -/
theorem chunker_reconstruction_cex :
    joinSpace ((chunkAll 5 [some ((List.replicate 51 ['a', ' ']).flatten),
        some ['b']]).map trim) ≠
      joinSpace (words (fragsConcat
        [some ((List.replicate 51 ['a', ' ']).flatten), some ['b']])) := by
  decide

/-- Claim C1 (amended): buffer_text_for_chunking never drops or
duplicates a non-whitespace character: the concatenation of all emitted
chunks has exactly the non-whitespace characters of the concatenated
input fragments, in order.  Whitespace is not fully preserved: a word
boundary can be lost when the hard ceiling fires on a buffer with
trailing whitespace (see the counterexample). -/
theorem chunker_preserves_nonspace (m : Nat) (ps : List (Option (List Char))) :
    (chunkAll m ps).flatten.filter nonSpace = (fragsConcat ps).filter nonSpace := by
  have h := chunkRun_filter m ps []
  rw [List.nil_append] at h
  rw [show chunkAll m ps = (chunkRun m ps []).1 ++
    (if trim (chunkRun m ps []).2 = [] then []
     else [trim (chunkRun m ps []).2]) from rfl]
  by_cases hg : trim (chunkRun m ps []).2 = []
  · rw [if_pos hg]
    have h2 : ((chunkRun m ps []).2).filter nonSpace = [] := trim_eq_nil_filter hg
    rw [List.filter_append, h2, List.append_nil] at h
    simpa using h
  · rw [if_neg hg]
    rw [List.flatten_append, List.filter_append]
    simp only [List.flatten_cons, List.flatten_nil, List.append_nil]
    rw [filter_trim, ← List.filter_append]
    exact h

/-- Claim C8, counterexample: on the single fragment "ab ab ... ab "
(34 repetitions, 102 characters) with minimum size 5, the ceiling-forced
chunk is "ab ab ... ab" (33 words): its trailing character is the letter
b — neither punctuation nor whitespace — and it is not at the true end of
the input, since a further chunk "ab" follows. -/
theorem chunker_trailing_char_cex :
    (chunkAll 5 [some ((List.replicate 34 ['a', 'b', ' ']).flatten)]).length = 2 ∧
    ((chunkAll 5 [some ((List.replicate 34 ['a', 'b', ' ']).flatten)]).getD 0
      []).getLastD ' ' = 'b' ∧
    isPunct 'b' = false ∧ isSpace 'b' = false ∧
    (chunkAll 5 [some ((List.replicate 34 ['a', 'b', ' ']).flatten)]).getD 1
      [] ≠ [] := by
  decide

/-- Claim C8 (amended): when the hard ceiling forces an emit on a
buffer holding more than one word, the split falls exactly at the last
word boundary of the buffer: the emitted chunk consists of all words of
the buffer but the last, joined by single spaces, and the (non-empty)
last word stays buffered — no word of the current buffer is cut.  The
emitted chunk's trailing character is, however, the final letter of a
word, not punctuation or whitespace, and words straddling fragment
boundaries can still be split (see the counterexample). -/
theorem chunker_ceiling_word_boundary (m : Nat) (buf q : List Char)
    (h1 : (m ≤ (buf ++ q).length && endsWithPunct (buf ++ q)) = false)
    (h2 : 100 < (buf ++ q).length)
    (h3 : 1 < (words (buf ++ q)).length) :
    ∃ cs w, words (buf ++ q) = cs ++ [w] ∧
      chunkStep m buf (some q) = ([trim (joinSpace cs)], w) ∧
      words (trim (joinSpace cs)) = cs ∧ w ≠ [] := by
  have hne : words (buf ++ q) ≠ [] := by
    intro h
    rw [h] at h3
    simp at h3
  refine ⟨(words (buf ++ q)).dropLast, (words (buf ++ q)).getLast hne,
    (List.dropLast_append_getLast hne).symm, ?_, ?_,
    words_ne_nil _ _ (List.getLast_mem hne)⟩
  · have hlastD : (words (buf ++ q)).getLastD [] =
        (words (buf ++ q)).getLast hne := by
      conv_lhs => rw [(List.dropLast_append_getLast hne).symm]
      exact getLastD_append_singleton _ _ _
    simp only [chunkStep, h1, Bool.false_eq_true, if_false, h2, if_true, h3,
      hlastD]
  · rw [words_trim]
    exact words_joinSpace _ (fun w hw =>
      ⟨words_ne_nil _ w (List.dropLast_subset _ hw),
        fun c hc => words_nonspace _ w (List.dropLast_subset _ hw) c hc⟩)

/-- Claim C8, witness: the amended statement instantiated on the
102-character buffer "ab ab ... ab ". -/
theorem chunker_ceiling_word_boundary_witness :
    ((5 ≤ (([] : List Char) ++ (List.replicate 34 ['a', 'b', ' ']).flatten).length &&
      endsWithPunct (([] : List Char) ++
        (List.replicate 34 ['a', 'b', ' ']).flatten)) = false) ∧
    (100 < (([] : List Char) ++ (List.replicate 34 ['a', 'b', ' ']).flatten).length) ∧
    (1 < (words (([] : List Char) ++
      (List.replicate 34 ['a', 'b', ' ']).flatten)).length) ∧
    (∃ cs w, words (([] : List Char) ++
        (List.replicate 34 ['a', 'b', ' ']).flatten) = cs ++ [w] ∧
      chunkStep 5 [] (some ((List.replicate 34 ['a', 'b', ' ']).flatten)) =
        ([trim (joinSpace cs)], w) ∧
      words (trim (joinSpace cs)) = cs ∧ w ≠ []) :=
  ⟨by decide, by decide, by decide,
    chunker_ceiling_word_boundary 5 [] _ (by decide) (by decide) (by decide)⟩

/-- Claim C2, counterexample: a buffer ending in a comma (length 15 ≥
minimum 5) emits nothing, and a buffer ending in a trailing space with
length 12 ≥ twice the minimum 5 also emits nothing — the softer
boundaries described by the claim do not exist in
buffer_text_for_chunking. -/
theorem chunker_soft_boundary_cex :
    (chunkStep 5 [] (some "hello everyone,".data)).1 = [] ∧
    "hello everyone,".data.getLastD ' ' = ',' ∧
    5 ≤ "hello everyone,".data.length ∧
    (chunkStep 5 [] (some "hello there ".data)).1 = [] ∧
    "hello there ".data.getLastD 'x' = ' ' ∧
    2 * 5 ≤ "hello there ".data.length := by
  decide

/-- Claim C2 (amended): buffer_text_for_chunking has no softer emission
boundaries: while the buffer is within the 100-character hard ceiling, a
buffer ending in a comma, or ending in a space whose preceding character
is not sentence punctuation, emits nothing and the whole buffer is
retained — emission happens only at a sentence boundary with the minimum
size reached, at the hard ceiling, or at stream end. -/
theorem chunker_no_soft_boundaries (m : Nat) (buf q : List Char)
    (hlen : (buf ++ q).length ≤ 100)
    (hsoft : (∃ l', buf ++ q = l' ++ [',']) ∨
      (∃ l' d, isPunct d = false ∧ buf ++ q = l' ++ [d, ' '])) :
    chunkStep m buf (some q) = ([], buf ++ q) := by
  have hp : endsWithPunct (buf ++ q) = false := by
    rcases hsoft with ⟨l', hl⟩ | ⟨l', d, hd, hl⟩
    · rw [hl]
      simp [endsWithPunct, List.reverse_append, isPunct]
    · rw [hl]
      have hsp : isPunct ' ' = false := by decide
      simp [endsWithPunct, List.reverse_append, hd, hsp]
  simp only [chunkStep, hp, Bool.and_false, Bool.false_eq_true, if_false,
    Nat.not_lt.mpr hlen]

/-- Claim C2, witness: the amended statement instantiated on the
comma-terminated buffer "hello everyone,". -/
theorem chunker_no_soft_boundaries_witness :
    (([] : List Char) ++ "hello everyone,".data).length ≤ 100 ∧
    chunkStep 5 [] (some "hello everyone,".data) =
      ([], [] ++ "hello everyone,".data) :=
  ⟨by decide, chunker_no_soft_boundaries 5 [] _ (by decide)
    (Or.inl ⟨"hello everyone".data, by decide⟩)⟩

/-- Claim C6: validate_pcm16_24khz accepts a buffer exactly when its
length is even, at least 2, and every one of the leading (up to 10)
little-endian signed 16-bit samples lies within the signed 16-bit range;
in particular every odd-length buffer is rejected. -/
theorem validate_pcm16_iff (data : List Nat) :
    (validate_pcm16_24khz data = true ↔
      data.length % 2 = 0 ∧ 2 ≤ data.length ∧
      ∀ s ∈ pcmSamples (data.take 20), -32768 ≤ s ∧ s ≤ 32767) ∧
    (data.length % 2 = 1 → validate_pcm16_24khz data = false) := by
  constructor
  · unfold validate_pcm16_24khz
    by_cases h1 : data.length % 2 ≠ 0
    · rw [if_pos h1]
      constructor
      · intro h
        exact absurd h (by simp)
      · intro h
        exact absurd h.1 h1
    · rw [if_neg h1]
      rw [Decidable.not_not] at h1
      by_cases h2 : data.length < 2
      · rw [if_pos h2]
        constructor
        · intro h
          exact absurd h (by simp)
        · intro h
          omega
      · rw [if_neg h2]
        rw [List.all_eq_true]
        constructor
        · intro h
          refine ⟨h1, Nat.not_lt.mp h2, fun s hs => ?_⟩
          have := h s hs
          simp only [sampleOk, Bool.and_eq_true, decide_eq_true_eq] at this
          exact this
        · intro h s hs
          simp only [sampleOk, Bool.and_eq_true, decide_eq_true_eq]
          exact h.2.2 s hs
  · intro h
    unfold validate_pcm16_24khz
    rw [if_pos (by omega)]

/-- Claim C6, witness: the odd-length conjunct instantiated on the
single-byte buffer. -/
theorem validate_pcm16_iff_witness :
    [(5 : Nat)].length % 2 = 1 ∧ validate_pcm16_24khz [5] = false :=
  ⟨by decide, (validate_pcm16_iff [5]).2 (by decide)⟩

theorem int16OfBytes_range {lo hi : Nat} (hlo : lo < 256) (hhi : hi < 256) :
    -32768 ≤ int16OfBytes lo hi ∧ int16OfBytes lo hi ≤ 32767 := by
  simp only [int16OfBytes]
  by_cases h : lo + 256 * hi < 32768
  · rw [if_pos h]
    omega
  · rw [if_neg h]
    constructor <;> [skip; skip] <;> omega

theorem pcmSamples_range : ∀ (data : List Nat), BytesWF data →
    ∀ s ∈ pcmSamples data, -32768 ≤ s ∧ s ≤ 32767
  | [], _, s, hs => by simp [pcmSamples] at hs
  | [_], _, s, hs => by simp [pcmSamples] at hs
  | lo :: hi :: rest, h, s, hs => by
    simp only [pcmSamples, List.mem_cons] at hs
    rcases hs with rfl | hs
    · exact int16OfBytes_range (h lo (by simp)) (h hi (by simp))
    · exact pcmSamples_range rest (fun b hb => h b (by simp [hb])) s hs

/-- Claim C10: for actual byte data the per-sample range test of
validate_pcm16_24khz can never fail — any two bytes unpacked as a
little-endian signed 16-bit integer land in [-32768, 32767] — so the
validator reduces to the pure length check: even length and length at
least 2.  Arbitrary even-length binary data therefore always passes. -/
theorem validate_pcm16_eq_length_check (data : List Nat) (hwf : BytesWF data) :
    validate_pcm16_24khz data =
      (decide (data.length % 2 = 0) && decide (2 ≤ data.length)) := by
  unfold validate_pcm16_24khz
  by_cases h1 : data.length % 2 ≠ 0
  · rw [if_pos h1]
    have : decide (data.length % 2 = 0) = false := by
      simpa using h1
    rw [this, Bool.false_and]
  · rw [if_neg h1]
    rw [Decidable.not_not] at h1
    by_cases h2 : data.length < 2
    · rw [if_pos h2]
      have : decide (2 ≤ data.length) = false := by
        simp
        omega
      rw [this, Bool.and_false]
    · rw [if_neg h2]
      have hall : (pcmSamples (data.take 20)).all sampleOk = true := by
        rw [List.all_eq_true]
        intro s hs
        have := pcmSamples_range (data.take 20)
          (fun b hb => hwf b (List.take_subset _ _ hb)) s hs
        simp only [sampleOk, Bool.and_eq_true, decide_eq_true_eq]
        exact this
      rw [hall]
      have e1 : decide (data.length % 2 = 0) = true := by simpa using h1
      have e2 : decide (2 ≤ data.length) = true := by
        simp
        omega
      rw [e1, e2, Bool.and_true]

/-- Claim C10, witness: the length-check equation instantiated on the
two-byte buffer [200, 100]. -/
theorem validate_pcm16_eq_length_check_witness :
    BytesWF [200, 100] ∧
    validate_pcm16_24khz [200, 100] =
      (decide ([(200 : Nat), 100].length % 2 = 0) &&
        decide (2 ≤ [(200 : Nat), 100].length)) :=
  ⟨by decide, validate_pcm16_eq_length_check [200, 100] (by decide)⟩

/-- Claim C7: convert_to_pcm16_24khz returns an already-canonical buffer
unchanged, and applying it twice gives the same result as applying it
once on such a buffer. -/
theorem convert_idempotent_on_canonical (data : List Nat) (rate : Nat)
    (h : validate_pcm16_24khz data = true) :
    convert_to_pcm16_24khz data rate = some data ∧
    (convert_to_pcm16_24khz data rate).bind
        (fun d => convert_to_pcm16_24khz d rate) =
      convert_to_pcm16_24khz data rate := by
  have h1 : convert_to_pcm16_24khz data rate = some data := by
    unfold convert_to_pcm16_24khz
    rw [if_pos h]
  refine ⟨h1, ?_⟩
  rw [h1, Option.some_bind, h1]

/-- Claim C7, witness: idempotence instantiated on the canonical
two-byte buffer of one zero sample. -/
theorem convert_idempotent_on_canonical_witness :
    validate_pcm16_24khz [0, 0] = true ∧
    (convert_to_pcm16_24khz [0, 0] 48000 = some [0, 0] ∧
      (convert_to_pcm16_24khz [0, 0] 48000).bind
          (fun d => convert_to_pcm16_24khz d 48000) =
        convert_to_pcm16_24khz [0, 0] 48000) :=
  ⟨by decide, convert_idempotent_on_canonical [0, 0] 48000 (by decide)⟩

/-- Claim C3: when validation fails and linear resampling yields no
result, convert_to_pcm16_24khz still returns the original buffer rather
than a failure value; and (the modelled conversion path raising no
exception) the function never returns None. -/
theorem convert_fallback_returns_original (data : List Nat) (rate : Nat) :
    (validate_pcm16_24khz data = false →
      resample_pcm16 data rate 24000 = none →
      convert_to_pcm16_24khz data rate = some data) ∧
    convert_to_pcm16_24khz data rate ≠ none := by
  constructor
  · intro hv hr
    unfold convert_to_pcm16_24khz
    rw [hv]
    simp only [Bool.false_eq_true, if_false]
    by_cases hrate : rate ≠ 24000
    · rw [if_pos hrate, hr]
    · rw [if_neg hrate]
  · unfold convert_to_pcm16_24khz
    by_cases hv : validate_pcm16_24khz data = true
    · rw [if_pos hv]
      exact Option.some_ne_none data
    · rw [if_neg hv]
      by_cases hrate : rate ≠ 24000
      · rw [if_pos hrate]
        rcases hres : resample_pcm16 data rate 24000 with _ | r
        · exact Option.some_ne_none data
        · show (if r = [] then some data else some r) ≠ none
          by_cases hempty : r = []
          · rw [if_pos hempty]
            exact Option.some_ne_none data
          · rw [if_neg hempty]
            exact Option.some_ne_none r
      · rw [if_neg hrate]
        exact Option.some_ne_none data

/-- Claim C3, witness: the fallback instantiated on the odd-length
buffer [5] at declared rate 48000, on which both validation and
resampling fail. -/
theorem convert_fallback_returns_original_witness :
    validate_pcm16_24khz [5] = false ∧
    resample_pcm16 [5] 48000 24000 = none ∧
    convert_to_pcm16_24khz [5] 48000 = some [5] :=
  ⟨by decide, by decide,
    (convert_fallback_returns_original [5] 48000).1 (by decide) (by decide)⟩

theorem b64Val_b64CharOf : ∀ v < 64, b64Val (b64CharOf v) = some v := by decide

theorem b64CharOf_ne_pad : ∀ v < 64, b64CharOf v ≠ '=' := by decide

theorem b64_roundtrip : ∀ (bs : List Nat), BytesWF bs →
    b64Decode (b64Encode bs) = some bs
  | [], _ => rfl
  | [b1], h => by
    have hb1 : b1 < 256 := h b1 (by simp)
    have h1 := b64Val_b64CharOf (b1 / 4) (by omega)
    have h2 := b64Val_b64CharOf (b1 % 4 * 16) (by omega)
    simp only [b64Encode, b64Decode, h1, h2]
    simp only [if_pos rfl, and_self, if_true]
    have : b1 / 4 * 4 + b1 % 4 * 16 / 16 = b1 := by omega
    rw [this]
  | [b1, b2], h => by
    have hb1 : b1 < 256 := h b1 (by simp)
    have hb2 : b2 < 256 := h b2 (by simp)
    have h1 := b64Val_b64CharOf (b1 / 4) (by omega)
    have h2 := b64Val_b64CharOf (b1 % 4 * 16 + b2 / 16) (by omega)
    have h3 := b64Val_b64CharOf (b2 % 16 * 4) (by omega)
    have h3ne := b64CharOf_ne_pad (b2 % 16 * 4) (by omega)
    simp only [b64Encode, b64Decode, h1, h2, h3]
    rw [if_neg h3ne]
    simp only [if_pos rfl, if_true]
    have e1 : b1 / 4 * 4 + (b1 % 4 * 16 + b2 / 16) / 16 = b1 := by omega
    have e2 : (b1 % 4 * 16 + b2 / 16) % 16 * 16 + b2 % 16 * 4 / 4 = b2 := by
      omega
    rw [e1, e2]
  | b1 :: b2 :: b3 :: rest, h => by
    have hb1 : b1 < 256 := h b1 (by simp)
    have hb2 : b2 < 256 := h b2 (by simp)
    have hb3 : b3 < 256 := h b3 (by simp)
    have h1 := b64Val_b64CharOf (b1 / 4) (by omega)
    have h2 := b64Val_b64CharOf (b1 % 4 * 16 + b2 / 16) (by omega)
    have h3 := b64Val_b64CharOf (b2 % 16 * 4 + b3 / 64) (by omega)
    have h4 := b64Val_b64CharOf (b3 % 64) (by omega)
    have h3ne := b64CharOf_ne_pad (b2 % 16 * 4 + b3 / 64) (by omega)
    have h4ne := b64CharOf_ne_pad (b3 % 64) (by omega)
    have ih := b64_roundtrip rest
      (fun b hb => h b (by simp at hb ⊢; tauto))
    simp only [b64Encode, List.cons_append, List.append_eq, List.nil_append,
      b64Decode, h1, h2, h3, h4]
    rw [if_neg h3ne, if_neg h4ne, ih]
    simp only [Option.map_some']
    have e1 : b1 / 4 * 4 + (b1 % 4 * 16 + b2 / 16) / 16 = b1 := by omega
    have e2 : (b1 % 4 * 16 + b2 / 16) % 16 * 16 +
        (b2 % 16 * 4 + b3 / 64) / 4 = b2 := by omega
    have e3 : (b2 % 16 * 4 + b3 / 64) % 4 * 64 + b3 % 64 = b3 := by omega
    rw [e1, e2, e3]

/-- Claim C4: for a connected session, when send_audio_chunk receives a
buffer that already passes canonical-PCM validation, it sends exactly
one input_audio_buffer.append event whose base64 payload decodes to
exactly the input bytes, increments the valid-chunk counter by one and
leaves the rejected-chunk counter unchanged (returning True). -/
theorem send_audio_chunk_valid_buffer (st : RelayState) (now : Nat)
    (audio : List Nat) (s : Session) (hs : st.session = some s)
    (hws : s.hasWebsocket = true)
    (hv : validate_pcm16_24khz audio = true) (hwf : BytesWF audio) :
    (send_audio_chunk st now audio).2.1 =
        [ProviderEvent.appendAudio (b64Encode audio)] ∧
    b64Decode (b64Encode audio) = some audio ∧
    (send_audio_chunk st now audio).1.stats.valid_chunks =
      st.stats.valid_chunks + 1 ∧
    (send_audio_chunk st now audio).1.stats.rejected_chunks =
      st.stats.rejected_chunks ∧
    (send_audio_chunk st now audio).2.2 = true := by
  have hstep : send_audio_chunk st now audio =
      (({ session := some ({ s with
            lastActivity := now,
            stats := ({ s.stats with
              chunks_sent := s.stats.chunks_sent + 1,
              total_audio_bytes := s.stats.total_audio_bytes + audio.length }) }),
          stats := ({ st.stats with
            total_chunks_processed := st.stats.total_chunks_processed + 1,
            valid_chunks := st.stats.valid_chunks + 1 }) } : RelayState),
       [ProviderEvent.appendAudio (b64Encode audio)], true) := by
    rcases st with ⟨sess, gstats⟩
    have hs' : sess = some s := hs
    subst hs'
    simp only [send_audio_chunk, hws, hv]
    rw [if_pos trivial, if_neg (fun hcon => hcon trivial)]
  exact ⟨by rw [hstep], b64_roundtrip audio hwf, by rw [hstep], by rw [hstep],
    by rw [hstep]⟩

/-- Claim C4, witness: one two-byte canonical buffer sent on a fresh
connected session with zeroed counters. -/
theorem send_audio_chunk_valid_buffer_witness :
    (⟨some ⟨true, 0, ⟨0, 0, 0⟩⟩, ⟨0, 0, 0, 0⟩⟩ : RelayState).session =
        some ⟨true, 0, ⟨0, 0, 0⟩⟩ ∧
    (⟨true, 0, ⟨0, 0, 0⟩⟩ : Session).hasWebsocket = true ∧
    validate_pcm16_24khz [0, 0] = true ∧ BytesWF [0, 0] ∧
    ((send_audio_chunk ⟨some ⟨true, 0, ⟨0, 0, 0⟩⟩, ⟨0, 0, 0, 0⟩⟩ 7 [0, 0]).2.1 =
        [ProviderEvent.appendAudio (b64Encode [0, 0])] ∧
      b64Decode (b64Encode [0, 0]) = some [0, 0] ∧
      (send_audio_chunk ⟨some ⟨true, 0, ⟨0, 0, 0⟩⟩, ⟨0, 0, 0, 0⟩⟩ 7
          [0, 0]).1.stats.valid_chunks =
        (⟨some ⟨true, 0, ⟨0, 0, 0⟩⟩, ⟨0, 0, 0, 0⟩⟩ : RelayState).stats.valid_chunks
          + 1 ∧
      (send_audio_chunk ⟨some ⟨true, 0, ⟨0, 0, 0⟩⟩, ⟨0, 0, 0, 0⟩⟩ 7
          [0, 0]).1.stats.rejected_chunks =
        (⟨some ⟨true, 0, ⟨0, 0, 0⟩⟩,
          ⟨0, 0, 0, 0⟩⟩ : RelayState).stats.rejected_chunks ∧
      (send_audio_chunk ⟨some ⟨true, 0, ⟨0, 0, 0⟩⟩, ⟨0, 0, 0, 0⟩⟩ 7
          [0, 0]).2.2 = true) :=
  ⟨rfl, rfl, by decide, by decide,
    send_audio_chunk_valid_buffer ⟨some ⟨true, 0, ⟨0, 0, 0⟩⟩, ⟨0, 0, 0, 0⟩⟩ 7
      [0, 0] ⟨true, 0, ⟨0, 0, 0⟩⟩ rfl rfl (by decide) (by decide)⟩

/-- Auxiliary for C5: find? over entries that all fail the key test
skips to the appended entry. -/
theorem find?_skip_to_last (p : CacheEntry → Bool) (e : CacheEntry) :
    ∀ l : List CacheEntry, (∀ x ∈ l, p x = false) →
    List.find? p (l ++ [e]) = List.find? p [e]
  | [], _ => rfl
  | x :: xs, h => by
    rw [List.cons_append, List.find?_cons, h x (by simp)]
    exact find?_skip_to_last p e xs (fun y hy => h y (by simp [hy]))

/-- Claim C5: calling _build_cached_system_context twice with the same
knowledge content, the second call within the TTL of the entry the first
call created, invokes the instruction builder exactly once; the second
call returns the cached instructions, leaves the cache untouched, and
the two calls share exactly one cache entry for their common
fingerprint. -/
theorem build_cached_context_hits_cache (c0 : ContextCache) (now now' : Nat)
    (chunks : List String)
    (hmiss : cacheLookup c0 now (cacheKey chunks) = none)
    (h1 : now ≤ now') (h2 : now' < now + 3600) :
    (build_cached_system_context c0 now chunks).invokedBuilder = true ∧
    (build_cached_system_context
        (build_cached_system_context c0 now chunks).cache now'
        chunks).invokedBuilder = false ∧
    (build_cached_system_context
        (build_cached_system_context c0 now chunks).cache now' chunks).value =
      (build_cached_system_context c0 now chunks).value ∧
    (build_cached_system_context
        (build_cached_system_context c0 now chunks).cache now' chunks).cache =
      (build_cached_system_context c0 now chunks).cache ∧
    ((build_cached_system_context c0 now chunks).cache.filter
        (fun e => cacheKey chunks = e.key)).length = 1 := by
  have hr1 : build_cached_system_context c0 now chunks =
      ⟨buildInstructions chunks,
        cacheInsert c0 now (cacheKey chunks) (buildInstructions chunks), true⟩ := by
    unfold build_cached_system_context
    rw [hmiss]
  set k := cacheKey chunks with hk
  set v := buildInstructions chunks with hv
  set e : CacheEntry := ⟨k, v, now + 3600⟩ with he
  have hshape : ∃ l : List CacheEntry, (∀ x ∈ l, ¬ k = x.key) ∧
      cacheInsert c0 now k v = l ++ [e] := by
    have hkeptkeys : ∀ x ∈ c0.filter (fun x => !(decide (k = x.key))),
        ¬ k = x.key := by
      intro x hx
      have h3 := (List.mem_filter.mp hx).2
      simpa using h3
    show ∃ l, _ ∧ (if 100 < (c0.filter (fun x => !(decide (k = x.key))) ++
        [e]).length then
      (c0.filter (fun x => !(decide (k = x.key))) ++ [e]).drop
        ((c0.filter (fun x => !(decide (k = x.key))) ++ [e]).length - 100)
      else c0.filter (fun x => !(decide (k = x.key))) ++ [e]) = l ++ [e]
    by_cases hlen : 100 <
        (c0.filter (fun x => !(decide (k = x.key))) ++ [e]).length
    · rw [if_pos hlen]
      have hle : (c0.filter (fun x => !(decide (k = x.key))) ++ [e]).length
          - 100 ≤ (c0.filter (fun x => !(decide (k = x.key)))).length := by
        rw [List.length_append]
        simp only [List.length_singleton]
        omega
      refine ⟨(c0.filter (fun x => !(decide (k = x.key)))).drop
        ((c0.filter (fun x => !(decide (k = x.key))) ++ [e]).length - 100),
        ?_, ?_⟩
      · intro x hx
        exact hkeptkeys x (List.drop_subset _ _ hx)
      · rw [List.drop_append_of_le_length hle]
    · rw [if_neg hlen]
      exact ⟨_, hkeptkeys, rfl⟩
  obtain ⟨l, hlkeys, hins⟩ := hshape
  have hfind : cacheLookup (cacheInsert c0 now k v) now' k = some v := by
    unfold cacheLookup
    rw [hins, find?_skip_to_last _ e l (fun x hx => by
      have hne : decide (k = x.key) = false :=
        decide_eq_false (hlkeys x hx)
      rw [hne, Bool.false_and])]
    have hpe : (decide (k = e.key) && decide (now' < e.expires)) = true := by
      rw [decide_eq_true (show k = e.key from rfl),
        decide_eq_true (show now' < e.expires from h2), Bool.and_self]
    rw [List.find?_cons, hpe]
    rfl
  have hr2 : build_cached_system_context (cacheInsert c0 now k v) now' chunks =
      ⟨v, cacheInsert c0 now k v, false⟩ := by
    unfold build_cached_system_context
    rw [← hk, hfind]
  rw [hr1]
  have hproj : (BuildResult.mk v (cacheInsert c0 now k v) true).cache =
      cacheInsert c0 now k v := rfl
  rw [hproj, hr2]
  refine ⟨rfl, rfl, rfl, rfl, ?_⟩
  rw [hins, List.filter_append]
  rw [List.filter_eq_nil_iff.mpr
    (fun x hx hcon => hlkeys x hx (of_decide_eq_true hcon))]
  rw [List.nil_append, List.filter_cons,
    if_pos (show (decide (k = e.key)) = true from decide_eq_true rfl)]
  rfl

/-- Claim C5, witness: two back-to-back builds from an empty cache with
the same single knowledge chunk, one second apart. -/
theorem build_cached_context_hits_cache_witness :
    cacheLookup [] 0 (cacheKey ["tariff data"]) = none ∧ (0 : Nat) ≤ 1 ∧
    (1 : Nat) < 0 + 3600 ∧
    ((build_cached_system_context [] 0 ["tariff data"]).invokedBuilder = true ∧
      (build_cached_system_context
          (build_cached_system_context [] 0 ["tariff data"]).cache 1
          ["tariff data"]).invokedBuilder = false ∧
      (build_cached_system_context
          (build_cached_system_context [] 0 ["tariff data"]).cache 1
          ["tariff data"]).value =
        (build_cached_system_context [] 0 ["tariff data"]).value ∧
      (build_cached_system_context
          (build_cached_system_context [] 0 ["tariff data"]).cache 1
          ["tariff data"]).cache =
        (build_cached_system_context [] 0 ["tariff data"]).cache ∧
      ((build_cached_system_context [] 0 ["tariff data"]).cache.filter
          (fun e => cacheKey ["tariff data"] = e.key)).length = 1) :=
  ⟨rfl, by omega, by omega,
    build_cached_context_hits_cache [] 0 1 ["tariff data"] rfl (by omega)
      (by omega)⟩

end VoiceAgent

